import Mathlib

/-!
Shallow embedding of the negativa-ml core (Rust) for specification checking.

The embedding covers:
* `src/locator/gpu_code.rs` — fat-binary region/element parsing
  (`GPUCode::new`, `Region::new`, `Region::size`, `find_most_fit_capability`);
* `src/locator/locator.rs` — element span computation in `KernelLocator::new`,
  the deletable-span query `locate_deletable_file_spans`, and the
  disassembler-output parser `extract_cubin_kernels`;
* `src/elf/elf.rs` — `ELF64::new` and `get_symbol_offset`;
* `src/tracer/tracer.rs` — the shared-object path filter in `Tracer::trace`.

Machine integers are modelled as `Nat` (host is little-endian; the Rust code
reads all multi-byte header fields with `from_ne_bytes`).  Fallible code
(Rust panics / index-out-of-bounds / `unwrap`) is modelled with `Option`,
`none` standing for a panic.  Loops whose progress depends on parsed data are
modelled with explicit fuel; the fuel chosen in the top-level definitions is
provably sufficient for every terminating run of the Rust loops.
-/

/-! ### Little-endian byte readers (`u16/u32/u64::from_ne_bytes` on subslices) -/

/-- Read `w` bytes little-endian at offset `o`; `none` when the slice
`[o, o+w)` is out of bounds (Rust: slice-index panic). -/
def readLE (bs : List Nat) : Nat → Nat → Option Nat
  | _, 0 => some 0
  | o, w + 1 =>
    match bs.get? o with
    | none => none
    | some b =>
      match readLE bs (o + 1) w with
      | none => none
      | some rest => some (b + 256 * rest)

/-! ### Fat-binary data model (`gpu_code.rs`) -/

/-- Header of a fat-binary region: `header_size` at bytes `[6..8)` and
`fat_size` at bytes `[8..16)` of the region. -/
structure RegionHeader where
  header_size : Nat
  fat_size : Nat
  deriving DecidableEq, Repr

/-- Header of a fat-binary element (32 bytes): `file_type` at `[0..2)`,
`offset` at `[4..8)`, `size` at `[8..16)`, `capability` at `[28..32)`. -/
structure ElementHeader where
  file_type : Nat
  offset : Nat
  size : Nat
  capability : Nat
  deriving DecidableEq, Repr

/-- A region: its header plus the parsed element headers, in file order. -/
structure Region where
  header : RegionHeader
  elements : List ElementHeader
  deriving DecidableEq, Repr

/-- Parse one 32-byte element header at inner offset `e` of the region data
(Rust `Region::new` loop body). -/
def parseElementHeader (rd : List Nat) (e : Nat) : Option ElementHeader :=
  match readLE rd e 2 with
  | none => none
  | some ft =>
    match readLE rd (e + 4) 4 with
    | none => none
    | some off =>
      match readLE rd (e + 8) 8 with
      | none => none
      | some sz =>
        match readLE rd (e + 28) 4 with
        | none => none
        | some cap => some ⟨ft, off, sz, cap⟩

/-- The element loop of `Region::new`: starting at inner offset `e`, read an
element header while `e < fat_size`, then advance `e` by `offset + size`.
The `fuel` argument makes the recursion structural; `none` on fuel
exhaustion models divergence of the Rust loop (which happens exactly when
an element advance is `0`), and `none` from the header read models the
Rust slice-index panic. -/
def parseElements (rd : List Nat) (fatSize : Nat) : Nat → Nat → Option (List ElementHeader)
  | _, 0 => none
  | e, fuel + 1 =>
    if e < fatSize then
      match parseElementHeader rd e with
      | none => none
      | some h =>
        match parseElements rd fatSize (h.offset + e + h.size) fuel with
        | none => none
        | some rest => some (h :: rest)
    else some []

/-- Rust `Region::new(gpu_code_data, start_offset)`: drop to the region start,
read `header_size` and `fat_size`, then run the element loop from inner
offset 16. -/
def Region.new (blob : List Nat) (startOffset : Nat) : Option Region :=
  let rd := blob.drop startOffset
  match readLE rd 6 2 with
  | none => none
  | some hs =>
    match readLE rd 8 8 with
    | none => none
    | some fat =>
      match parseElements rd fat 16 (fat + 1) with
      | none => none
      | some elems => some ⟨⟨hs, fat⟩, elems⟩

/-- Rust `Region::size()`: `fat_size + RegionHeader::size()` with the
constant header size 16. -/
def Region.size (r : Region) : Nat :=
  r.header.fat_size + 16

/-- The region loop of `GPUCode::new`: while `offset < blob.len()`, parse a
region and advance by `region.size()`.  Fuel makes the recursion structural;
every region advances the offset by at least 16, so fuel `blob.length + 1`
is sufficient for any terminating run. -/
def parseRegions (blob : List Nat) : Nat → Nat → Option (List Region)
  | _, 0 => none
  | off, fuel + 1 =>
    if off < blob.length then
      match Region.new blob off with
      | none => none
      | some r =>
        match parseRegions blob (off + r.size) fuel with
        | none => none
        | some rest => some (r :: rest)
    else some []

/-- Rust `GPUCode::new`: parse regions from offset 0 until the blob is
exhausted.  `none` models a panic (or divergence) during parsing. -/
def GPUCode.new (blob : List Nat) : Option (List Region) :=
  parseRegions blob 0 (blob.length + 1)

/-- Rust `Region::find_most_fit_capability`: fold over the elements keeping
the largest capability that is `≤ target_cap`, starting from 0. -/
def Region.findMostFitCapability (r : Region) (targetCap : Nat) : Nat :=
  r.elements.foldl
    (fun mostFit e =>
      if e.capability ≤ targetCap ∧ e.capability > mostFit then e.capability else mostFit)
    0

/-! ### Element spans (`KernelLocator::new`, `locator.rs` lines 52–89) -/

/-- A half-open file span `[start, stop)`; Rust `ElementSpan { start, end }`
(the exclusive end is named `stop` here because `end` is a Lean keyword). -/
structure Span where
  start : Nat
  stop : Nat
  deriving DecidableEq, Repr

/-- Inner loop of the span computation in `KernelLocator::new`:
`start = element.offset + inner_offset + offset + header_size`,
`end = start + element.size`, then `inner_offset += element.offset + size`. -/
def spanElems (offset : Nat) (headerSize : Nat) : Nat → List ElementHeader → List Span
  | _, [] => []
  | inner, e :: es =>
    let s := e.offset + inner + offset + headerSize
    ⟨s, s + e.size⟩ :: spanElems offset headerSize (inner + e.offset + e.size) es

/-- Outer loop of the span computation in `KernelLocator::new`: the running
file offset starts at the GPU-code section start and advances by
`region.size()` after each region. -/
def computeSpans (gpuStart : Nat) : List Region → List (List Span)
  | [] => []
  | r :: rs =>
    spanElems gpuStart r.header.header_size 0 r.elements :: computeSpans (gpuStart + r.size) rs

/-! ### Kernel-reducible string utilities

Rust string operations (`trim`, `split_whitespace`, `contains`,
`starts_with`, `strip_prefix`) are modelled on `String.data` (a `List Char`)
by structural recursion, so that concrete instances evaluate inside the
kernel.  Whitespace is the ASCII whitespace that occurs in the disassembler
output. -/

/-- ASCII whitespace test used by the string models. -/
def charWS (c : Char) : Bool :=
  c = ' ' ∨ c = '\t' ∨ c = '\n' ∨ c = '\r'

/-- Drop leading whitespace characters. -/
def dropWS : List Char → List Char
  | [] => []
  | c :: cs => if charWS c then dropWS cs else c :: cs

/-- Model of Rust `str::trim` (ASCII whitespace). -/
def trimStr (s : String) : String :=
  ⟨dropWS ((dropWS s.data.reverse).reverse)⟩

/-- Split into maximal runs of non-whitespace characters
(model of Rust `str::split_whitespace`, which skips empty fields). -/
def fieldsAux (acc : List Char) : List Char → List (List Char)
  | [] => if acc = [] then [] else [acc.reverse]
  | c :: cs =>
    if charWS c then
      if acc = [] then fieldsAux [] cs else acc.reverse :: fieldsAux [] cs
    else fieldsAux (c :: acc) cs

/-- The `k`-th whitespace-separated field of a line
(Rust `line.split_whitespace().nth(k)`). -/
def nthField (s : String) (k : Nat) : Option String :=
  ((fieldsAux [] s.data).get? k).map (fun l => ⟨l⟩)

/-- Whether `pat` is a prefix of `l`. -/
def isPrefixList (pat : List Char) : List Char → Bool
  | [] => pat = []
  | b :: bs =>
    match pat with
    | [] => true
    | a :: as => a = b && isPrefixList as bs

/-- Whether `pat` occurs as a contiguous substring of `l`. -/
def isInfixList (pat : List Char) : List Char → Bool
  | [] => pat = []
  | c :: rest => isPrefixList pat (c :: rest) || isInfixList pat rest

/-- Model of Rust `str::contains(pat)` for a literal pattern. -/
def containsSubstr (s pat : String) : Bool :=
  isInfixList pat.data s.data

/-- Model of Rust `str::starts_with(pat)`. -/
def startsWithStr (s pat : String) : Bool :=
  isPrefixList pat.data s.data

/-- Model of `s.strip_prefix(pat).unwrap()` when `pat` has length `n`:
drop the first `n` characters. -/
def dropChars (s : String) (n : Nat) : String :=
  ⟨s.data.drop n⟩

/-- The cublas-internal-constants sentinel symbol
(`CUBLAS_INTERNAL_CONSTANT` in `locator.rs`). -/
def cublasSentinel : String :=
  "_ZN6cublas8internal15deviceConstantsE"

/-! ### The deletable-span query (`locate_deletable_file_spans`) -/

/-- Per-element body of `locate_deletable_file_spans`, in lockstep over the
region's elements, their spans and their kernel sets (the Rust code indexes
the parallel vectors `element_span` and `element_kernels` by the same
`(i, j)`).  Mirrors the branch structure of the Rust loop exactly. -/
def locateElems (soPath : String) (mostFitCap : Nat) (detectedKernels : Finset String) :
    List ElementHeader → List Span → List (Finset String) → List Span
  | e :: es, sp :: sps, ks :: kss =>
    let rest := locateElems soPath mostFitCap detectedKernels es sps kss
    if e.capability ≠ mostFitCap then sp :: rest
    else if e.file_type ≠ 2 then rest
    else if detectedKernels ∩ ks = ∅ then
      if containsSubstr soPath "libcublas" ∧ cublasSentinel ∈ ks then rest
      else sp :: rest
    else rest
  | _, _, _ => []

/-- Rust `KernelLocator::locate_deletable_file_spans`: for each region compute
`most_fit_cap` and run the element loop; concatenate in region order. -/
def locateDeletableFileSpans (soPath : String) (detectedKernels : Finset String)
    (computeCapability : Nat) :
    List Region → List (List Span) → List (List (Finset String)) → List Span
  | r :: rs, sp :: sps, ks :: kss =>
    locateElems soPath (r.findMostFitCapability computeCapability) detectedKernels
        r.elements sp ks
      ++ locateDeletableFileSpans soPath detectedKernels computeCapability rs sps kss
  | _, _, _ => []

/-! ### Specification-side definitions for the locator claims

These are written from the words of the specification (spec.md §4.4 and §8),
to be compared with the code model above. -/

/-- The per-region deletability rule as worded in spec.md §4.4: capability
mismatch is deletable; fitting non-cubin is kept; fitting cubin is deletable
iff its kernel set is disjoint from the used set, except for the libcublas
sentinel exception. -/
def specIsDeletable (soPath : String) (usedKernels : Finset String) (best : Nat)
    (e : ElementHeader) (ks : Finset String) : Bool :=
  if e.capability ≠ best then true
  else if e.file_type ≠ 2 then false
  else if usedKernels ∩ ks = ∅ then
    if containsSubstr soPath "libcublas" ∧ cublasSentinel ∈ ks then false else true
  else false

/-- Zip a region's elements with their spans and kernel sets. -/
def zipElems (elems : List ElementHeader) (sps : List Span) (kss : List (Finset String)) :
    List (ElementHeader × Span × Finset String) :=
  elems.zip (sps.zip kss)

/-- Specification-side emission (spec.md §4.4): regions in file order,
elements in file order within a region, each deletable element contributing
its span, unmerged and unsorted. -/
def specDeletableSpans (soPath : String) (usedKernels : Finset String) (targetCap : Nat) :
    List Region → List (List Span) → List (List (Finset String)) → List Span
  | r :: rs, sp :: sps, ks :: kss =>
    (((zipElems r.elements sp ks).filter fun x =>
          specIsDeletable soPath usedKernels (r.findMostFitCapability targetCap) x.1 x.2.2).map
        fun x => x.2.1)
      ++ specDeletableSpans soPath usedKernels targetCap rs sps kss
  | _, _, _ => []

/-- The keep-set predicate claimed by spec.md §8 (claim C2, as written):
keep exactly the fitting cubin elements whose kernel set meets the used set
or falls under the libcublas sentinel exception. -/
def specC2Keep (soPath : String) (usedKernels : Finset String) (best : Nat)
    (e : ElementHeader) (ks : Finset String) : Bool :=
  e.capability = best ∧ e.file_type = 2 ∧
    (¬ usedKernels ∩ ks = ∅ ∨ (containsSubstr soPath "libcublas" ∧ cublasSentinel ∈ ks))

/-- Emission under the claim-C2 reading: every non-kept element is deletable,
regions and elements in file order. -/
def specC2DeletableSpans (soPath : String) (usedKernels : Finset String) (targetCap : Nat) :
    List Region → List (List Span) → List (List (Finset String)) → List Span
  | r :: rs, sp :: sps, ks :: kss =>
    (((zipElems r.elements sp ks).filter fun x =>
          ¬ specC2Keep soPath usedKernels (r.findMostFitCapability targetCap) x.1 x.2.2).map
        fun x => x.2.1)
      ++ specC2DeletableSpans soPath usedKernels targetCap rs sps kss
  | _, _, _ => []

/-- The keep-set predicate that actually matches the code (amended C2):
non-cubin elements of the fitting capability are also kept. -/
def specC2AmendedKeep (soPath : String) (usedKernels : Finset String) (best : Nat)
    (e : ElementHeader) (ks : Finset String) : Bool :=
  e.capability = best ∧
    (e.file_type ≠ 2 ∨ ¬ usedKernels ∩ ks = ∅ ∨
      (containsSubstr soPath "libcublas" ∧ cublasSentinel ∈ ks))

/-- Emission under the amended C2 keep set. -/
def specC2AmendedDeletableSpans (soPath : String) (usedKernels : Finset String)
    (targetCap : Nat) :
    List Region → List (List Span) → List (List (Finset String)) → List Span
  | r :: rs, sp :: sps, ks :: kss =>
    (((zipElems r.elements sp ks).filter fun x =>
          ¬ specC2AmendedKeep soPath usedKernels (r.findMostFitCapability targetCap) x.1
            x.2.2).map
        fun x => x.2.1)
      ++ specC2AmendedDeletableSpans soPath usedKernels targetCap rs sps kss
  | _, _, _ => []

/-! ### Disassembler-output parsing (`extract_cubin_kernels`) -/

/-- The line-collection state machine of `extract_cubin_kernels`
(`locator.rs` lines 232–259): collect section-header lines after a
`Sections:` line until a blank line, and symbol-table lines after a
`.section .symtab` line until a blank line (which breaks the whole loop).
Returns `(section_header_output, symtable_output)`. -/
def collectDumpLines : List String → Bool → Bool → List String × List String
  | [], _, _ => ([], [])
  | l :: ls, secS, symS =>
    if secS then
      if trimStr l = "" then collectDumpLines ls false symS
      else
        let p := collectDumpLines ls secS symS
        (l :: p.1, p.2)
    else if symS then
      if trimStr l = "" then ([], [])
      else
        let p := collectDumpLines ls secS symS
        (p.1, l :: p.2)
    else if trimStr l = "Sections:" then collectDumpLines ls true symS
    else if trimStr l = ".section .symtab" then collectDumpLines ls false true
    else collectDumpLines ls secS symS

/-- The section-header pass (`locator.rs` lines 263–269) over
`section_header_output[1..]`: take the 10th whitespace field (`unwrap`
panics when absent, modelled by `none`), and when it starts with `.text.`
keep the remainder after the prefix. -/
def sectionKernelNames : List String → Option (List String)
  | [] => some []
  | l :: ls =>
    match nthField l 9 with
    | none => none
    | some name =>
      (sectionKernelNames ls).map fun rest =>
        if startsWithStr name ".text." then dropChars name 6 :: rest else rest

/-- The symbol-table pass (`locator.rs` lines 272–291) over
`symtable_output[1..]`: lines with fewer than 7 fields are skipped; on the
first line whose 7th field equals the sentinel, insert it and break. -/
def symtabHasSentinel : List String → Bool
  | [] => false
  | l :: ls =>
    match nthField l 6 with
    | none => symtabHasSentinel ls
    | some name => if name = cublasSentinel then true else symtabHasSentinel ls

/-- Rust `KernelLocator::extract_cubin_kernels`, given the disassembler's
stdout lines.  `none` models a panic: slicing `[1..]` of an empty collected
vector, or the `unwrap` of a missing 10th section field. -/
def extractCubinKernels (lines : List String) : Option (Finset String) :=
  let p := collectDumpLines lines false false
  match p.1 with
  | [] => none
  | _ :: secRest =>
    match sectionKernelNames secRest with
    | none => none
    | some names =>
      match p.2 with
      | [] => none
      | _ :: symRest =>
        some (names.toFinset ∪ if symtabHasSentinel symRest then {cublasSentinel} else ∅)

/-- The kernel set described by claim C8, written from the claim's words:
section names from the lines after the first header row, plus the sentinel
when SOME symbol-table line (including the first collected one) has it as
its 7th field. -/
def specC8KernelSet (lines : List String) : Option (Finset String) :=
  let p := collectDumpLines lines false false
  match p.1 with
  | [] => none
  | _ :: secRest =>
    match sectionKernelNames secRest with
    | none => none
    | some names =>
      some (names.toFinset ∪ if symtabHasSentinel p.2 then {cublasSentinel} else ∅)

/-! ### ELF reader model (`elf.rs`)

The code builds on the external `elf` crate; the model starts from an
already-structured 64-bit ELF: program headers, the optional static and
dynamic symbol tables, and their string tables.  A missing table models the
crate's `Ok(None)` result; string tables are raw byte lists. -/

/-- ELF program-header constants (ELF ABI): `PT_LOAD`, `PF_X`, `PF_R`. -/
def PT_LOAD : Nat := 1

/-- Flag bit for executable segments. -/
def PF_X : Nat := 1

/-- Flag bit for readable segments. -/
def PF_R : Nat := 4

/-- A program header: type, flags, virtual address, file offset. -/
structure Phdr where
  p_type : Nat
  p_flags : Nat
  p_vaddr : Nat
  p_offset : Nat
  deriving DecidableEq, Repr

/-- A symbol-table entry: string-table offset of the name, and value. -/
structure ElfSym where
  st_name : Nat
  st_value : Int
  deriving DecidableEq, Repr

/-- A well-formed-parse 64-bit ELF input: segments in file order, the
optional `.symtab`/`.strtab` pair and the optional `.dynsym`/`.dynstr`
pair. -/
structure ELFInput where
  segments : List Phdr
  symtab : Option (List ElfSym)
  strtab : Option (List Nat)
  dynsym : Option (List ElfSym)
  dynstr : Option (List Nat)
  deriving DecidableEq, Repr

/-- The constructed reader: the input plus `addr_offset_diff`. -/
structure ELF64 where
  input : ELFInput
  addr_offset_diff : Int
  deriving DecidableEq, Repr

/-- Rust `ELF64::new`: find the first `PT_LOAD` segment whose flags equal
exactly `PF_R | PF_X` and record `p_vaddr - p_offset`; `none` models the
`unwrap` panic when no such segment exists. -/
def ELF64.new (i : ELFInput) : Option ELF64 :=
  match i.segments.find? (fun p => p.p_type == PT_LOAD && p.p_flags == (PF_R ||| PF_X)) with
  | none => none
  | some p => some ⟨i, (p.p_vaddr : Int) - (p.p_offset : Int)⟩

/-- Read a NUL-terminated byte string at `off` (the `while tab[end] != 0`
loops in `get_dyn_symbol_bytes` / `get_debug_symbol_bytes`); `none` models
the index panic when the scan runs past the table. -/
def readCString (tab : List Nat) : Nat → Nat → Option (List Nat)
  | _, 0 => none
  | off, fuel + 1 =>
    match tab.get? off with
    | none => none
    | some 0 => some []
    | some b => (readCString tab (off + 1) fuel).map fun rest => b :: rest

/-- One symbol-table scan of `get_symbol_offset`: for each entry, fetch its
name bytes from the string table (`none` when the string table is absent —
the `.strtab`/`.dynstr` `unwrap` — or the string read panics) and compare
with `symbolBytes`; `some (some v)` on the first match with
`v = st_value - addr_offset_diff`, `some none` when the table is
exhausted. -/
def lookupSym (tab : List ElfSym) (strtabOpt : Option (List Nat)) (diff : Int)
    (symbolBytes : List Nat) : Option (Option Int) :=
  match tab with
  | [] => some none
  | s :: rest =>
    match strtabOpt with
    | none => none
    | some st =>
      match readCString st s.st_name (st.length + 1) with
      | none => none
      | some b =>
        if b = symbolBytes then some (some (s.st_value - diff))
        else lookupSym rest strtabOpt diff symbolBytes

/-- Rust `ELF64::get_symbol_offset`: scan the static symbol table first
(skipped entirely when absent), then the dynamic one, then return `None`.
The outer `Option` models a panic inside a scan. -/
def ELF64.getSymbolOffset (e : ELF64) (symbolBytes : List Nat) : Option (Option Int) :=
  let dynPart : Option (Option Int) :=
    match e.input.dynsym with
    | none => some none
    | some tab =>
      match lookupSym tab e.input.dynstr e.addr_offset_diff symbolBytes with
      | none => none
      | some (some v) => some (some v)
      | some none => some none
  match e.input.symtab with
  | none => dynPart
  | some tab =>
    match lookupSym tab e.input.strtab e.addr_offset_diff symbolBytes with
    | none => none
    | some (some v) => some (some v)
    | some none => dynPart

/-- Well-formedness of an ELF input: whenever a symbol table is present its
string table is present and every entry's name reads successfully as a
NUL-terminated string. -/
def ELFWellFormed (i : ELFInput) : Prop :=
  (∀ tab, i.symtab = some tab →
    ∃ st, i.strtab = some st ∧ ∀ s ∈ tab, (readCString st s.st_name (st.length + 1)).isSome) ∧
  (∀ tab, i.dynsym = some tab →
    ∃ st, i.dynstr = some st ∧ ∀ s ∈ tab, (readCString st s.st_name (st.length + 1)).isSome)

/-! ### Tracer shared-object path filter (`tracer.rs` lines 87–114) -/

/-- One step of the `so_reciver` filter loop in `Tracer::trace`, abstracted
over the filesystem: `fsExists` models `Path::exists`, `canon` models
`Path::canonicalize` (with `none` for its `Err`, whose `unwrap` panics),
and a path is absolute when it starts with a slash (Unix
`Path::is_absolute`).  The result is `some none` for a skipped path,
`some (some p)` for an accumulated path, `none` for a panic. -/
def processSoPath (fsExists : String → Bool) (canon : String → Option String)
    (cwd : String) (p : String) : Option (Option String) :=
  if p = "" then some none
  else if ¬ fsExists p then some none
  else if containsSubstr p "libkerneldetector.so" then some none
  else if startsWithStr p "/" then
    match canon p with
    | none => none
    | some c => some (some c)
  else some (some (cwd ++ "/" ++ p))

/-- The full filter loop over the received shared-object paths, accumulating
the surviving paths in arrival order (the Rust `HashSet` is modelled by the
list up to membership). -/
def collectLoadedSos (fsExists : String → Bool) (canon : String → Option String)
    (cwd : String) : List String → Option (List String)
  | [] => some []
  | p :: ps =>
    match processSoPath fsExists canon cwd p with
    | none => none
    | some none => collectLoadedSos fsExists canon cwd ps
    | some (some a) => (collectLoadedSos fsExists canon cwd ps).map fun rest => a :: rest

/-- Split a path into slash-separated components. -/
def splitSlash : List Char → List Char → List (List Char)
  | acc, [] => [acc.reverse]
  | acc, c :: cs => if c = '/' then acc.reverse :: splitSlash [] cs else splitSlash (c :: acc) cs

/-- Resolve `.`, `..` and empty components against a stack of components. -/
def normalizeComponents : List (List Char) → List (List Char) → List (List Char)
  | acc, [] => acc.reverse
  | acc, c :: cs =>
    if c = [] ∨ c = ['.'] then normalizeComponents acc cs
    else if c = ['.', '.'] then normalizeComponents acc.tail cs
    else normalizeComponents (c :: acc) cs

/-- Rejoin components with slashes. -/
def joinSlash : List (List Char) → List Char
  | [] => []
  | [c] => c
  | c :: cs => c ++ '/' :: joinSlash cs

/-- A concrete model of POSIX path canonicalization for absolute paths,
used to instantiate the abstract `canon` parameter: collapse `.`, `..` and
empty components (symlinks are not modelled).  A path is canonical exactly
when canonicalization leaves it unchanged. -/
def pathNormalize (s : String) : Option String :=
  if startsWithStr s "/" then
    some ⟨'/' :: joinSlash (normalizeComponents [] (splitSlash [] s.data.tail))⟩
  else none

/-! ### Concrete fat-binary fixtures used by counterexamples and witnesses -/

/-- A 64-byte blob: one region (`header_size = 16`, `fat_size = 48`) holding
one non-cubin element (`file_type = 1`, `offset = 0`, `size = 32`,
`capability = 70`). -/
def B2 : List Nat :=
  (((((List.replicate 64 0).set 6 16).set 8 48).set 16 1).set 24 32).set 44 70

/-- A 64-byte blob: one region (`header_size = 16`, `fat_size = 48`) holding
one cubin element whose payload size 1000 overshoots the region
(`file_type = 2`, `offset = 0`, `size = 1000`, `capability = 70`). -/
def B4 : List Nat :=
  ((((((List.replicate 64 0).set 6 16).set 8 48).set 16 2).set 24 232).set 25 3).set 44 70

/-- A 17-byte blob: one region with `header_size = 0` and `fat_size = 16`
(no elements); the region loop consumes 32 bytes and stops past the end. -/
def B5 : List Nat :=
  (List.replicate 17 0).set 8 16

/-- A 16-byte all-zero blob: one empty region, consumed exactly. -/
def B0 : List Nat := List.replicate 16 0

/-- Default span for indexed access in statements. -/
def dSpan : Span := ⟨0, 0⟩

/-- Default element header for indexed access in statements. -/
def dElem : ElementHeader := ⟨0, 0, 0, 0⟩

/-- Default region for indexed access in statements. -/
def dRegion : Region := ⟨⟨0, 0⟩, []⟩

/-! ### Closed forms for the element spans -/

/-- Sum of `offset + size` over the first `j` elements (the specification's
cumulative element advance). -/
def priorAdvance : List ElementHeader → Nat → Nat
  | _, 0 => 0
  | [], _ + 1 => 0
  | e :: es, j + 1 => e.offset + e.size + priorAdvance es j

/-- The specification's region file base: the GPU-code section start plus
`fat_size + 16` for every earlier region. -/
def regionBase (gpuStart : Nat) (regions : List Region) (i : Nat) : Nat :=
  gpuStart + ((regions.take i).map fun r => r.header.fat_size + 16).sum

theorem priorAdvance_nil (j : Nat) : priorAdvance [] j = 0 := by
  cases j <;> rfl

theorem priorAdvance_succ (elems : List ElementHeader) (j : Nat) (hj : j < elems.length) :
    priorAdvance elems (j + 1) =
      priorAdvance elems j + (elems.getD j dElem).offset + (elems.getD j dElem).size := by
  induction elems generalizing j with
  | nil => simp at hj
  | cons e es ih =>
    cases j with
    | zero => simp only [priorAdvance, List.getD_cons_zero]; omega
    | succ j =>
      simp only [priorAdvance, List.getD_cons_succ]
      rw [ih j (by simpa using hj)]
      omega

theorem priorAdvance_mono (elems : List ElementHeader) :
    ∀ a b : Nat, a ≤ b → priorAdvance elems a ≤ priorAdvance elems b := by
  induction elems with
  | nil => intro a b _; rw [priorAdvance_nil, priorAdvance_nil]
  | cons e es ih =>
    intro a b hab
    cases a with
    | zero => cases b <;> simp [priorAdvance]
    | succ a =>
      cases b with
      | zero => omega
      | succ b =>
        simp only [priorAdvance]
        have := ih a b (by omega)
        omega

theorem spanElems_length (offset headerSize : Nat) :
    ∀ (inner : Nat) (elems : List ElementHeader),
      (spanElems offset headerSize inner elems).length = elems.length := by
  intro inner elems
  induction elems generalizing inner with
  | nil => rfl
  | cons e es ih => simp [spanElems, ih]

theorem spanElems_getD (offset headerSize : Nat) :
    ∀ (elems : List ElementHeader) (j inner : Nat), j < elems.length →
      (spanElems offset headerSize inner elems).getD j dSpan =
        ⟨offset + headerSize + inner + (elems.getD j dElem).offset + priorAdvance elems j,
         offset + headerSize + inner + (elems.getD j dElem).offset + priorAdvance elems j +
           (elems.getD j dElem).size⟩ := by
  intro elems
  induction elems with
  | nil => intro j inner hj; simp at hj
  | cons e es ih =>
    intro j inner hj
    cases j with
    | zero =>
      simp only [spanElems, List.getD_cons_zero, priorAdvance, Span.mk.injEq]
      omega
    | succ j =>
      simp only [spanElems, List.getD_cons_succ, priorAdvance]
      rw [ih j (inner + e.offset + e.size) (by simpa using hj)]
      simp only [Span.mk.injEq]
      omega

/-- C3: For every region and element index, the span computed at locator
construction satisfies
`start = region_file_base + header_size + elem.offset + (sum of prev.offset + prev.size)`
and `end = start + elem.size`, where the first region's base is the GPU-code
section offset and each later base advances by the previous region's
`fat_size + 16`. -/
theorem C3_element_span_formula (gpuStart : Nat) (regions : List Region) (i j : Nat)
    (hi : i < regions.length) (hj : j < (regions.getD i dRegion).elements.length) :
    ((computeSpans gpuStart regions).getD i []).getD j dSpan =
      ⟨regionBase gpuStart regions i + (regions.getD i dRegion).header.header_size +
          ((regions.getD i dRegion).elements.getD j dElem).offset +
          priorAdvance (regions.getD i dRegion).elements j,
        regionBase gpuStart regions i + (regions.getD i dRegion).header.header_size +
          ((regions.getD i dRegion).elements.getD j dElem).offset +
          priorAdvance (regions.getD i dRegion).elements j +
          ((regions.getD i dRegion).elements.getD j dElem).size⟩ := by
  induction regions generalizing i gpuStart with
  | nil => simp at hi
  | cons r rs ih =>
    cases i with
    | zero =>
      simp only [computeSpans, List.getD_cons_zero] at hj ⊢
      rw [spanElems_getD gpuStart r.header.header_size r.elements j 0 hj]
      simp only [regionBase, List.take_zero, List.map_nil, List.sum_nil, Span.mk.injEq]
      omega
    | succ i =>
      simp only [computeSpans, List.getD_cons_succ] at hj ⊢
      rw [ih (gpuStart + r.size) i (by simpa using hi) hj]
      have hbase : regionBase (gpuStart + r.size) rs i = regionBase gpuStart (r :: rs) (i + 1) := by
        simp only [regionBase, List.take_succ_cons, List.map_cons, List.sum_cons, Region.size]
        omega
      rw [hbase]

/-- Witness for C3 at a concrete two-element region with section offset 5. -/
theorem C3_witness :
    ((computeSpans 5 [⟨⟨16, 48⟩, [⟨2, 0, 32, 70⟩, ⟨2, 8, 16, 75⟩]⟩]).getD 0 []).getD 1 dSpan =
      ⟨61, 77⟩ :=
  (C3_element_span_formula 5 [⟨⟨16, 48⟩, [⟨2, 0, 32, 70⟩, ⟨2, 8, 16, 75⟩]⟩] 0 1 (by decide)
      (by decide)).trans (by decide)

/-- C4 (amended): within one region, the derived spans never overlap
(unconditionally), and each span `[start, stop)` lies inside the region's
byte range `[base, base + fat_size + 16)` provided the region's
`header_size` is 16 and every element advance keeps the inner cursor at or
below `fat_size` (the claim fails without those provisos, see the
counterexample). -/
theorem C4_span_containment_nonoverlap (base headerSize fatSize : Nat)
    (elems : List ElementHeader) :
    (headerSize = 16 →
      (∀ j, j < elems.length → 16 + priorAdvance elems (j + 1) ≤ fatSize) →
      ∀ j, j < elems.length →
        base ≤ ((spanElems base headerSize 0 elems).getD j dSpan).start ∧
          ((spanElems base headerSize 0 elems).getD j dSpan).stop ≤ base + fatSize + 16) ∧
    (∀ j k, j < k → k < elems.length →
      ((spanElems base headerSize 0 elems).getD j dSpan).stop ≤
        ((spanElems base headerSize 0 elems).getD k dSpan).start) := by
  constructor
  · intro hhs hcur j hj
    rw [spanElems_getD base headerSize elems j 0 hj]
    have h1 := hcur j hj
    have h2 := priorAdvance_succ elems j hj
    simp only
    omega
  · intro j k hjk hk
    have hj : j < elems.length := by omega
    rw [spanElems_getD base headerSize elems j 0 hj, spanElems_getD base headerSize elems k 0 hk]
    have h2 := priorAdvance_succ elems j hj
    have h3 := priorAdvance_mono elems (j + 1) k (by omega)
    simp only
    omega

/-- Counterexample to C4 as stated: the blob `B4` is accepted by
`GPUCode::new`, yet the single element's derived span `[16, 1016)` does not
lie within the region's byte range `[0, 0 + 48 + 16)`. -/
theorem C4_counterexample :
    GPUCode.new B4 = some [⟨⟨16, 48⟩, [⟨2, 0, 1000, 70⟩]⟩] ∧
    computeSpans 0 ((GPUCode.new B4).getD []) = [[⟨16, 1016⟩]] ∧
    ¬ (((computeSpans 0 ((GPUCode.new B4).getD [])).getD 0 []).getD 0 dSpan).stop ≤
        0 + (((GPUCode.new B4).getD []).getD 0 dRegion).header.fat_size + 16 := by
  decide

/-- Witness for the amended C4 at a concrete region that satisfies the
provisos. -/
theorem C4_witness :
    (3 ≤ ((spanElems 3 16 0 [⟨2, 0, 16, 70⟩, ⟨2, 8, 8, 75⟩]).getD 1 dSpan).start ∧
      ((spanElems 3 16 0 [⟨2, 0, 16, 70⟩, ⟨2, 8, 8, 75⟩]).getD 1 dSpan).stop ≤ 3 + 48 + 16) ∧
    ((spanElems 3 16 0 [⟨2, 0, 16, 70⟩, ⟨2, 8, 8, 75⟩]).getD 0 dSpan).stop ≤
      ((spanElems 3 16 0 [⟨2, 0, 16, 70⟩, ⟨2, 8, 8, 75⟩]).getD 1 dSpan).start :=
  ⟨(C4_span_containment_nonoverlap 3 16 48 [⟨2, 0, 16, 70⟩, ⟨2, 8, 8, 75⟩]).1 rfl
      (by decide) 1 (by decide),
    (C4_span_containment_nonoverlap 3 16 48 [⟨2, 0, 16, 70⟩, ⟨2, 8, 8, 75⟩]).2 0 1
      (by decide) (by decide)⟩

/-- The region loop only stops at or past the end of the blob: every accepted
parse satisfies `blob.length ≤ off + sum (fat_size + 16)`. -/
theorem parseRegions_le_sum (blob : List Nat) :
    ∀ (fuel off : Nat) (regions : List Region),
      parseRegions blob off fuel = some regions →
      blob.length ≤ off + (regions.map fun r => 16 + r.header.fat_size).sum := by
  intro fuel
  induction fuel with
  | zero => intro off regions h; simp [parseRegions] at h
  | succ fuel ih =>
    intro off regions h
    simp only [parseRegions] at h
    by_cases hoff : off < blob.length
    · simp only [if_pos hoff] at h
      cases hr : Region.new blob off with
      | none => rw [hr] at h; exact absurd h (by simp)
      | some r =>
        rw [hr] at h
        dsimp only at h
        cases hrest : parseRegions blob (off + r.size) fuel with
        | none => rw [hrest] at h; exact absurd h (by simp)
        | some rest =>
          rw [hrest] at h
          dsimp only at h
          injection h with h
          subst h
          have := ih (off + r.size) rest hrest
          simp only [List.map_cons, List.sum_cons, Region.size] at this ⊢
          omega
    · simp only [if_neg hoff] at h
      injection h with h
      subst h
      simp only [List.map_nil, List.sum_nil]
      omega

/-- C5 (amended): for every blob accepted by `GPUCode::new`, the sum over
the parsed regions of `16 + fat_size` (the constant region-header size, not
the `header_size` field read from the file) is at least the blob length;
equality can fail when the last region overshoots the blob. -/
theorem C5_region_sizes_cover_blob (blob : List Nat) (regions : List Region)
    (h : GPUCode.new blob = some regions) :
    blob.length ≤ (regions.map fun r => 16 + r.header.fat_size).sum := by
  have := parseRegions_le_sum blob (blob.length + 1) 0 regions h
  omega

/-- Counterexample to C5 as stated: the 17-byte blob `B5` is accepted and
parses to one region with `header_size = 0` and `fat_size = 16`, so the sum
of `header_size + fat_size` is 16, not the blob length 17. -/
theorem C5_counterexample :
    GPUCode.new B5 = some [⟨⟨0, 16⟩, []⟩] ∧
    (((GPUCode.new B5).getD []).map fun r => r.header.header_size + r.header.fat_size).sum ≠
      B5.length := by
  decide

/-- Witness for the amended C5 on the 16-byte all-zero blob. -/
theorem C5_witness :
    B0.length ≤ (([⟨⟨0, 0⟩, []⟩] : List Region).map fun r => 16 + r.header.fat_size).sum :=
  C5_region_sizes_cover_blob B0 [⟨⟨0, 0⟩, []⟩] (by decide)

/-- One-step unfolding of the element loop at successor fuel. -/
theorem parseElements_succ (rd : List Nat) (fatSize e fuel : Nat) :
    parseElements rd fatSize e (fuel + 1) =
      if e < fatSize then
        match parseElementHeader rd e with
        | none => none
        | some h =>
          match parseElements rd fatSize (h.offset + e + h.size) fuel with
          | none => none
          | some rest => some (h :: rest)
      else some [] := rfl

/-- With strictly positive advances, the element loop's result does not
depend on the fuel once the fuel exceeds the remaining distance to
`fat_size`: every sufficient fuel yields the canonical result. -/
theorem parseElements_stable (rd : List Nat) (fatSize : Nat)
    (hpos : ∀ e, e < fatSize →
      0 < ((parseElementHeader rd e).getD ⟨0, 1, 0, 0⟩).offset +
          ((parseElementHeader rd e).getD ⟨0, 1, 0, 0⟩).size) :
    ∀ (fuel e : Nat), fatSize - e < fuel →
      parseElements rd fatSize e fuel = parseElements rd fatSize e (fatSize - e + 1) := by
  intro fuel
  induction fuel using Nat.strong_induction_on with
  | _ fuel ih =>
    intro e hlt
    cases fuel with
    | zero => omega
    | succ f =>
      by_cases he : e < fatSize
      · obtain ⟨n, hn⟩ : ∃ n, fatSize - e = n + 1 := ⟨fatSize - e - 1, by omega⟩
        rw [hn, parseElements_succ, parseElements_succ, if_pos he, if_pos he]
        cases hh : parseElementHeader rd e with
        | none => rfl
        | some h =>
          dsimp only
          have hadv : 0 < h.offset + h.size := by
            have := hpos e he
            rw [hh] at this
            simpa using this
          have h1 := ih f (by omega) (h.offset + e + h.size) (by omega)
          have h2 := ih (n + 1) (by omega) (h.offset + e + h.size) (by omega)
          rw [h1, h2]
      · have h0 : fatSize - e = 0 := by omega
        rw [h0, parseElements_succ, parseElements_succ, if_neg he, if_neg he]

/-- With strictly positive advances and in-bounds header reads at every
reachable cursor, the element loop returns a result (never exhausts fuel). -/
theorem parseElements_total (rd : List Nat) (fatSize : Nat)
    (hok : ∀ e, e < fatSize →
      (parseElementHeader rd e).isSome ∧
        0 < ((parseElementHeader rd e).getD ⟨0, 1, 0, 0⟩).offset +
            ((parseElementHeader rd e).getD ⟨0, 1, 0, 0⟩).size) :
    ∀ (fuel e : Nat), fatSize - e < fuel → (parseElements rd fatSize e fuel).isSome := by
  intro fuel
  induction fuel using Nat.strong_induction_on with
  | _ fuel ih =>
    intro e hlt
    cases fuel with
    | zero => omega
    | succ f =>
      by_cases he : e < fatSize
      · rw [parseElements_succ, if_pos he]
        obtain ⟨hsome, hpos⟩ := hok e he
        obtain ⟨h, hh⟩ := Option.isSome_iff_exists.mp hsome
        rw [hh]
        dsimp only
        have hadv : 0 < h.offset + h.size := by
          rw [hh] at hpos
          simpa using hpos
        have := ih f (by omega) (h.offset + e + h.size) (by omega)
        obtain ⟨rest, hrest⟩ := Option.isSome_iff_exists.mp this
        rw [hrest]
        rfl
      · rw [parseElements_succ, if_neg he]
        rfl

/-- C6: under the precondition that every element header decodes with a
strictly positive advance `offset + size`, the element loop of
`Region::new` terminates — its result is fuel-independent once the fuel
exceeds `fat_size`, and when the reachable header reads are also in bounds
the loop (started at inner offset 16) returns a result. -/
theorem C6_element_loop_terminates (rd : List Nat) (fatSize : Nat) :
    ((∀ e, e < fatSize →
        0 < ((parseElementHeader rd e).getD ⟨0, 1, 0, 0⟩).offset +
            ((parseElementHeader rd e).getD ⟨0, 1, 0, 0⟩).size) →
      ∀ f₁ f₂, fatSize < f₁ → fatSize < f₂ →
        parseElements rd fatSize 16 f₁ = parseElements rd fatSize 16 f₂) ∧
    ((∀ e, e < fatSize →
        (parseElementHeader rd e).isSome ∧
          0 < ((parseElementHeader rd e).getD ⟨0, 1, 0, 0⟩).offset +
              ((parseElementHeader rd e).getD ⟨0, 1, 0, 0⟩).size) →
      (parseElements rd fatSize 16 (fatSize + 1)).isSome) := by
  constructor
  · intro hpos f₁ f₂ h₁ h₂
    rw [parseElements_stable rd fatSize hpos f₁ 16 (by omega),
      parseElements_stable rd fatSize hpos f₂ 16 (by omega)]
  · intro hok
    exact parseElements_total rd fatSize hok (fatSize + 1) 16 (by omega)

/-- Witness for C6 on a 49-byte all-ones region body with `fat_size = 17`
(every potential header decodes with positive advance). -/
theorem C6_witness :
    parseElements (List.replicate 49 1) 17 16 100 =
        parseElements (List.replicate 49 1) 17 16 18 ∧
      (parseElements (List.replicate 49 1) 17 16 18).isSome :=
  ⟨(C6_element_loop_terminates (List.replicate 49 1) 17).1 (by decide) 100 18 (by decide)
      (by decide),
    (C6_element_loop_terminates (List.replicate 49 1) 17).2 (by decide)⟩

/-- Per-region lockstep equivalence between the code's element loop and the
specification's filter-and-map over the zipped element data. -/
theorem locateElems_eq_filter (soPath : String) (best : Nat) (U : Finset String) :
    ∀ (elems : List ElementHeader) (sps : List Span) (kss : List (Finset String)),
      sps.length = elems.length → kss.length = elems.length →
      locateElems soPath best U elems sps kss =
        ((zipElems elems sps kss).filter fun x => specIsDeletable soPath U best x.1 x.2.2).map
          fun x => x.2.1 := by
  intro elems
  induction elems with
  | nil => intro sps kss _ _; simp [locateElems, zipElems]
  | cons e es ih =>
    intro sps kss hs hk
    cases sps with
    | nil => simp at hs
    | cons sp sps =>
      cases kss with
      | nil => simp at hk
      | cons ks kss =>
        have hrec := ih sps kss (by simpa using hs) (by simpa using hk)
        simp only [locateElems, zipElems, List.zip_cons_cons, List.filter_cons] at hrec ⊢
        by_cases h1 : e.capability ≠ best
        · simp [specIsDeletable, h1, hrec]
        · by_cases h2 : e.file_type ≠ 2
          · simp [specIsDeletable, h1, h2, hrec]
          · by_cases h3 : U ∩ ks = ∅
            · by_cases h4 : containsSubstr soPath "libcublas" ∧ cublasSentinel ∈ ks
              · simp [specIsDeletable, h1, h2, h3, h4, hrec]
              · simp [specIsDeletable, h1, h2, h3, h4, hrec]
            · simp [specIsDeletable, h1, h2, h3, hrec]

/-- C1: `locate_deletable_file_spans` emits exactly the spans of the
elements selected by the per-region rule with
`best = find_most_fit_capability(target)` — capability mismatch deletable,
fitting non-cubin kept, fitting cubin deletable iff disjoint from the used
kernels except under the libcublas sentinel exception — with regions in
file order and elements in file order within each region, unmerged and
unsorted. -/
theorem C1_locate_deletable_spans_rule (soPath : String) (U : Finset String) (t : Nat) :
    ∀ (regions : List Region) (sps : List (List Span)) (kss : List (List (Finset String))),
      List.Forall₂ (fun (r : Region) (sp : List Span) => sp.length = r.elements.length)
        regions sps →
      List.Forall₂ (fun (r : Region) (ks : List (Finset String)) => ks.length = r.elements.length)
        regions kss →
      locateDeletableFileSpans soPath U t regions sps kss =
        specDeletableSpans soPath U t regions sps kss := by
  intro regions
  induction regions with
  | nil =>
    intro sps kss hs hk
    cases hs
    cases hk
    rfl
  | cons r rs ih =>
    intro sps kss hs hk
    cases hs with
    | cons hsp hsps =>
      cases hk with
      | cons hks hkss =>
        simp only [locateDeletableFileSpans, specDeletableSpans]
        rw [locateElems_eq_filter soPath (r.findMostFitCapability t) U r.elements _ _ hsp hks,
          ih _ _ hsps hkss]

/-- Witness for C1 at a concrete one-region locator state. -/
theorem C1_witness :
    locateDeletableFileSpans "libx.so" ∅ 75 [⟨⟨16, 48⟩, [⟨2, 0, 32, 70⟩]⟩] [[⟨16, 48⟩]]
        [[{"kA"}]] =
      specDeletableSpans "libx.so" ∅ 75 [⟨⟨16, 48⟩, [⟨2, 0, 32, 70⟩]⟩] [[⟨16, 48⟩]]
        [[{"kA"}]] :=
  C1_locate_deletable_spans_rule "libx.so" ∅ 75 [⟨⟨16, 48⟩, [⟨2, 0, 32, 70⟩]⟩] [[⟨16, 48⟩]]
    [[{"kA"}]] (by simp) (by simp)

/-- Per-region lockstep equivalence between the code's element loop and the
amended-C2 keep set: an element is emitted exactly when it is not kept by
`specC2AmendedKeep`. -/
theorem locateElems_eq_amended_keep (soPath : String) (best : Nat) (U : Finset String) :
    ∀ (elems : List ElementHeader) (sps : List Span) (kss : List (Finset String)),
      sps.length = elems.length → kss.length = elems.length →
      locateElems soPath best U elems sps kss =
        ((zipElems elems sps kss).filter fun x =>
            ¬ specC2AmendedKeep soPath U best x.1 x.2.2).map
          fun x => x.2.1 := by
  intro elems
  induction elems with
  | nil => intro sps kss _ _; simp [locateElems, zipElems]
  | cons e es ih =>
    intro sps kss hs hk
    cases sps with
    | nil => simp at hs
    | cons sp sps =>
      cases kss with
      | nil => simp at hk
      | cons ks kss =>
        have hrec := ih sps kss (by simpa using hs) (by simpa using hk)
        simp only [locateElems, zipElems, List.zip_cons_cons, List.filter_cons] at hrec ⊢
        by_cases h1 : e.capability ≠ best
        · simp [specC2AmendedKeep, h1, hrec]
        · by_cases h2 : e.file_type ≠ 2
          · simp [specC2AmendedKeep, h1, h2, hrec]
          · by_cases h3 : U ∩ ks = ∅
            · by_cases h4 : containsSubstr soPath "libcublas" ∧ cublasSentinel ∈ ks
              · simp [specC2AmendedKeep, h1, h2, h3, h4, hrec]
              · simp [specC2AmendedKeep, h1, h2, h3, h4, hrec]
            · simp [specC2AmendedKeep, h1, h2, h3, hrec]

/-- C2 (amended): `locate_deletable_file_spans` keeps exactly the elements
with `capability = best(t)` that are either non-cubin (`file_type ≠ 2`) or
cubin with a used kernel or the libcublas sentinel exception; every other
element is emitted as deletable, regions and elements in file order. -/
theorem C2_keep_set_amended (soPath : String) (U : Finset String) (t : Nat) :
    ∀ (regions : List Region) (sps : List (List Span)) (kss : List (List (Finset String))),
      List.Forall₂ (fun (r : Region) (sp : List Span) => sp.length = r.elements.length)
        regions sps →
      List.Forall₂ (fun (r : Region) (ks : List (Finset String)) => ks.length = r.elements.length)
        regions kss →
      locateDeletableFileSpans soPath U t regions sps kss =
        specC2AmendedDeletableSpans soPath U t regions sps kss := by
  intro regions
  induction regions with
  | nil =>
    intro sps kss hs hk
    cases hs
    cases hk
    rfl
  | cons r rs ih =>
    intro sps kss hs hk
    cases hs with
    | cons hsp hsps =>
      cases hk with
      | cons hks hkss =>
        simp only [locateDeletableFileSpans, specC2AmendedDeletableSpans]
        rw [locateElems_eq_amended_keep soPath (r.findMostFitCapability t) U r.elements _ _
            hsp hks,
          ih _ _ hsps hkss]

/-- Counterexample to C2 as stated: the blob `B2` parses to one region with
a single non-cubin element of the fitting capability; the code keeps it
(empty output), while the claimed keep set would delete it. -/
theorem C2_counterexample :
    GPUCode.new B2 = some [⟨⟨16, 48⟩, [⟨1, 0, 32, 70⟩]⟩] ∧
    locateDeletableFileSpans "libx.so" ∅ 70 ((GPUCode.new B2).getD [])
        (computeSpans 0 ((GPUCode.new B2).getD [])) [[∅]] = [] ∧
    specC2DeletableSpans "libx.so" ∅ 70 ((GPUCode.new B2).getD [])
        (computeSpans 0 ((GPUCode.new B2).getD [])) [[∅]] = [⟨16, 48⟩] := by
  decide

/-- Witness for the amended C2 at a concrete one-region locator state. -/
theorem C2_witness :
    locateDeletableFileSpans "libcublas.so" {"kB"} 70 [⟨⟨16, 48⟩, [⟨1, 0, 32, 70⟩]⟩]
        [[⟨16, 48⟩]] [[∅]] =
      specC2AmendedDeletableSpans "libcublas.so" {"kB"} 70 [⟨⟨16, 48⟩, [⟨1, 0, 32, 70⟩]⟩]
        [[⟨16, 48⟩]] [[∅]] :=
  C2_keep_set_amended "libcublas.so" {"kB"} 70 [⟨⟨16, 48⟩, [⟨1, 0, 32, 70⟩]⟩] [[⟨16, 48⟩]]
    [[∅]] (by simp) (by simp)

/-- Concrete disassembler output whose first collected symbol-table line is
the only one carrying the sentinel: the code skips it, the claimed parse
does not. -/
def CE8 : List String :=
  ["Sections:", "hdr", "", ".section .symtab",
    "a b c d e f _ZN6cublas8internal15deviceConstantsE", "x x x x x x other"]

/-- Concrete well-formed disassembler output: one header row and one
`.text.`-section row in the sections block, a header row and a sentinel row
in the symbol table. -/
def W8 : List String :=
  ["Sections:",
    "h1 h2 h3 h4 h5 h6 h7 h8 h9 name",
    "s1 s2 s3 s4 s5 s6 s7 s8 s9 .text.kFoo",
    "",
    ".section .symtab",
    "idx val sz ty bnd vis hdr",
    "1 0 0 OBJECT GLOBAL DEFAULT _ZN6cublas8internal15deviceConstantsE"]

/-- Characterization of the section pass: when every line's 10th field
exists, the pass succeeds and produces exactly the stripped `.text.`
names. -/
theorem sectionKernelNames_char :
    ∀ ls : List String, (∀ l ∈ ls, (nthField l 9).isSome) →
      ∃ names, sectionKernelNames ls = some names ∧
        ∀ k, k ∈ names ↔ ∃ l ∈ ls, ∃ name, nthField l 9 = some name ∧
          startsWithStr name ".text." = true ∧ k = dropChars name 6 := by
  intro ls
  induction ls with
  | nil => intro _; exact ⟨[], rfl, by simp⟩
  | cons l ls ih =>
    intro h
    obtain ⟨name, hname⟩ := Option.isSome_iff_exists.mp (h l (by simp))
    obtain ⟨names, hnames, hmem⟩ := ih fun x hx => h x (by simp [hx])
    refine ⟨if startsWithStr name ".text." then dropChars name 6 :: names else names, ?_, ?_⟩
    · rw [sectionKernelNames, hname]
      dsimp only
      rw [hnames]
      rfl
    · intro k
      by_cases hst : startsWithStr name ".text." = true
    
      · simp only [if_pos hst, List.mem_cons, hmem]
        constructor
        · rintro (rfl | ⟨l', hl', name', h1, h2, h3⟩)
          · exact ⟨l, by simp, name, hname, hst, rfl⟩
          · exact ⟨l', by simp [hl'], name', h1, h2, h3⟩
        · rintro ⟨l', hl', name', h1, h2, h3⟩
          rcases hl' with rfl | hl'
          · rw [hname] at h1
            injection h1 with h1
            subst h1
            exact Or.inl h3
          · exact Or.inr ⟨l', hl', name', h1, h2, h3⟩
      · simp only [if_neg hst, hmem]
        constructor
        · rintro ⟨l', hl', name', h1, h2, h3⟩
          exact ⟨l', by simp [hl'], name', h1, h2, h3⟩
        · rintro ⟨l', hl', name', h1, h2, h3⟩
          rcases List.mem_cons.mp hl' with rfl | hl'
          · rw [hname] at h1
            injection h1 with h1
            subst h1
            exact absurd h2 hst
          · exact ⟨l', hl', name', h1, h2, h3⟩

/-- The symbol-table pass finds the sentinel exactly when some scanned line
has it as its 7th whitespace-separated field. -/
theorem symtabHasSentinel_iff :
    ∀ ls : List String,
      symtabHasSentinel ls = true ↔ ∃ l ∈ ls, nthField l 6 = some cublasSentinel := by
  intro ls
  induction ls with
  | nil => simp [symtabHasSentinel]
  | cons l ls ih =>
    cases hf : nthField l 6 with
    | none => simp [symtabHasSentinel, hf, ih]
    | some name =>
      by_cases hn : name = cublasSentinel
      · subst hn
        simp [symtabHasSentinel, hf]
      · simp [symtabHasSentinel, hf, hn, ih]

/-- C8 (amended): when the collected sections and symbol-table vectors are
nonempty and every section line after the first header row has a 10th
field, `extract_cubin_kernels` returns exactly the set of `.text.`-stripped
section names from those lines plus the sentinel when some symbol-table
line AFTER THE FIRST COLLECTED ROW has it as its 7th field (the code slices
`symtable_output[1..]`, so the first collected symbol-table line is never
scanned); short symbol-table lines are skipped, not fatal. -/
theorem C8_extract_cubin_kernels (lines : List String) (s0 : String) (secRest : List String)
    (y0 : String) (symRest : List String)
    (hcol : collectDumpLines lines false false = (s0 :: secRest, y0 :: symRest))
    (hfields : ∀ l ∈ secRest, (nthField l 9).isSome) :
    ∃ S, extractCubinKernels lines = some S ∧
      ∀ k, k ∈ S ↔
        (∃ l ∈ secRest, ∃ name, nthField l 9 = some name ∧
          startsWithStr name ".text." = true ∧ k = dropChars name 6) ∨
        (k = cublasSentinel ∧ ∃ l ∈ symRest, nthField l 6 = some cublasSentinel) := by
  obtain ⟨names, hnames, hmem⟩ := sectionKernelNames_char secRest hfields
  refine ⟨names.toFinset ∪ if symtabHasSentinel symRest then {cublasSentinel} else ∅, ?_, ?_⟩
  · rw [extractCubinKernels, hcol]
    dsimp only
    rw [hnames]
  · intro k
    rw [Finset.mem_union, List.mem_toFinset, hmem]
    by_cases hs : symtabHasSentinel symRest = true
    · rw [if_pos hs, Finset.mem_singleton]
      rw [symtabHasSentinel_iff] at hs
      constructor
      · rintro (h | rfl)
        · exact Or.inl h
        · exact Or.inr ⟨rfl, hs⟩
      · rintro (h | ⟨rfl, _⟩)
        · exact Or.inl h
        · exact Or.inr rfl
    · rw [if_neg hs]
      simp only [Finset.not_mem_empty, or_false]
      constructor
      · exact Or.inl
      · rintro (h | ⟨rfl, hex⟩)
        · exact h
        · exact absurd ((symtabHasSentinel_iff symRest).mpr hex) hs

/-- Counterexample to C8 as stated: on `CE8` the sentinel appears only in
the first collected symbol-table line, which the code skips; the returned
set lacks the sentinel while the claimed set contains it. -/
theorem C8_counterexample :
    (extractCubinKernels CE8).isSome ∧
      cublasSentinel ∉ (extractCubinKernels CE8).getD ∅ ∧
      cublasSentinel ∈ (specC8KernelSet CE8).getD ∅ := by
  decide

/-- Witness for the amended C8 on the well-formed output `W8`. -/
theorem C8_witness :
    (extractCubinKernels W8).isSome ∧ cublasSentinel ∈ (extractCubinKernels W8).getD ∅ := by
  obtain ⟨S, hS, hmem⟩ :=
    C8_extract_cubin_kernels W8 "h1 h2 h3 h4 h5 h6 h7 h8 h9 name"
      ["s1 s2 s3 s4 s5 s6 s7 s8 s9 .text.kFoo"] "idx val sz ty bnd vis hdr"
      ["1 0 0 OBJECT GLOBAL DEFAULT _ZN6cublas8internal15deviceConstantsE"] (by decide)
      (by decide)
  refine ⟨by rw [hS]; rfl, ?_⟩
  rw [hS]
  show cublasSentinel ∈ S
  rw [hmem]
  exact Or.inr ⟨rfl, "1 0 0 OBJECT GLOBAL DEFAULT _ZN6cublas8internal15deviceConstantsE",
    by decide, by decide⟩

/-- When no line trims to `Sections:`, no section lines are collected. -/
theorem collect_no_sections :
    ∀ (lines : List String) (symS : Bool),
      (∀ l ∈ lines, trimStr l ≠ "Sections:") →
      (collectDumpLines lines false symS).1 = [] := by
  intro lines
  induction lines with
  | nil => intro symS _; cases symS <;> rfl
  | cons l ls ih =>
    intro symS h
    have hl : trimStr l ≠ "Sections:" := h l (by simp)
    have hls : ∀ x ∈ ls, trimStr x ≠ "Sections:" := fun x hx => h x (by simp [hx])
    cases symS with
    | true =>
      by_cases hb : trimStr l = ""
      · simp [collectDumpLines, hb]
      · simp only [collectDumpLines, Bool.false_eq_true, if_false, if_true, if_neg hb]
        exact ih true hls
    | false =>
      by_cases hsec : trimStr l = ".section .symtab"
      · simp only [collectDumpLines, Bool.false_eq_true, if_false, if_neg hl, if_pos hsec]
        exact ih true hls
      · simp only [collectDumpLines, Bool.false_eq_true, if_false, if_neg hl, if_neg hsec]
        exact ih false hls

/-- When no line trims to `.section .symtab`, no symbol-table lines are
collected. -/
theorem collect_no_symtab :
    ∀ (lines : List String) (secS : Bool),
      (∀ l ∈ lines, trimStr l ≠ ".section .symtab") →
      (collectDumpLines lines secS false).2 = [] := by
  intro lines
  induction lines with
  | nil => intro secS _; cases secS <;> rfl
  | cons l ls ih =>
    intro secS h
    have hl : trimStr l ≠ ".section .symtab" := h l (by simp)
    have hls : ∀ x ∈ ls, trimStr x ≠ ".section .symtab" := fun x hx => h x (by simp [hx])
    cases secS with
    | true =>
      by_cases hb : trimStr l = ""
      · simp only [collectDumpLines, if_true, if_pos hb]
        exact ih false hls
      · simp only [collectDumpLines, if_true, if_neg hb]
        exact ih true hls
    | false =>
      by_cases hsec : trimStr l = "Sections:"
      · simp only [collectDumpLines, Bool.false_eq_true, if_false, if_pos hsec]
        exact ih true hls
      · simp only [collectDumpLines, Bool.false_eq_true, if_false, if_neg hsec, if_neg hl]
        exact ih false hls

/-- A section line without a 10th field makes the section pass panic. -/
theorem sectionKernelNames_none :
    ∀ (ls : List String) (l : String), l ∈ ls → nthField l 9 = none →
      sectionKernelNames ls = none := by
  intro ls
  induction ls with
  | nil => intro l hl _; simp at hl
  | cons a as ih =>
    intro l hl hnone
    rcases List.mem_cons.mp hl with rfl | hl
    · rw [sectionKernelNames, hnone]
    · cases ha : nthField a 9 with
      | none => rw [sectionKernelNames, ha]
      | some name =>
        rw [sectionKernelNames, ha]
        dsimp only
        rw [ih l hl hnone]
        rfl

/-- C10: `extract_cubin_kernels` panics (modelled by `none`) on every output
without a `Sections:` line, on every output without a `.section .symtab`
line, and on every output whose collected sections block has, after the
header row, a line with fewer than 10 whitespace-separated fields. -/
theorem C10_extract_panics :
    (∀ lines : List String, (∀ l ∈ lines, trimStr l ≠ "Sections:") →
      extractCubinKernels lines = none) ∧
    (∀ lines : List String, (∀ l ∈ lines, trimStr l ≠ ".section .symtab") →
      extractCubinKernels lines = none) ∧
    (∀ (lines : List String) (l : String),
      l ∈ (collectDumpLines lines false false).1.tail → nthField l 9 = none →
      extractCubinKernels lines = none) := by
  refine ⟨?_, ?_, ?_⟩
  · intro lines h
    rw [extractCubinKernels]
    have := collect_no_sections lines false h
    rw [this]
  · intro lines h
    rw [extractCubinKernels]
    have := collect_no_symtab lines false h
    cases hsec : (collectDumpLines lines false false).1 with
    | nil => rfl
    | cons s0 secRest =>
      dsimp only
      cases hnames : sectionKernelNames secRest with
      | none => rfl
      | some names =>
        dsimp only
        rw [this]
  · intro lines l hl hnone
    rw [extractCubinKernels]
    cases hsec : (collectDumpLines lines false false).1 with
    | nil => rfl
    | cons s0 secRest =>
      rw [hsec] at hl
      dsimp only at hl ⊢
      rw [sectionKernelNames_none secRest l hl hnone]

/-- Witness for C10 on three concrete malformed outputs. -/
theorem C10_witness :
    extractCubinKernels ["x"] = none ∧
      extractCubinKernels ["Sections:", "a"] = none ∧
      extractCubinKernels ["Sections:", "h", "a b"] = none :=
  ⟨C10_extract_panics.1 ["x"] (by decide),
    C10_extract_panics.2.1 ["Sections:", "a"] (by decide),
    C10_extract_panics.2.2 ["Sections:", "h", "a b"] "a b" (by decide) (by decide)⟩

/-- A well-formed string-table scan never panics: the lookup either finds a
value or exhausts the table. -/
theorem lookupSym_isSome (tab : List ElfSym) (st : List Nat) (diff : Int)
    (symbolBytes : List Nat)
    (h : ∀ s ∈ tab, (readCString st s.st_name (st.length + 1)).isSome) :
    (lookupSym tab (some st) diff symbolBytes).isSome := by
  induction tab with
  | nil => rfl
  | cons s rest ih =>
    rw [lookupSym]
    obtain ⟨b, hb⟩ := Option.isSome_iff_exists.mp (h s (by simp))
    rw [hb]
    dsimp only
    by_cases heq : b = symbolBytes
    · rw [if_pos heq]
      rfl
    · rw [if_neg heq]
      exact ih fun x hx => h x (by simp [hx])

/-- C7: for well-formed 64-bit ELF inputs, construction succeeds exactly
when a read-only-executable `PT_LOAD` segment exists, symbol lookup never
fails (it tolerates the absence of either symbol table), and when both
tables are absent `get_symbol_offset` returns `None`. -/
theorem C7_elf_reader_tolerance (i : ELFInput) (hwf : ELFWellFormed i) :
    ((ELF64.new i).isSome ↔
      ∃ p ∈ i.segments, p.p_type = PT_LOAD ∧ p.p_flags = PF_R ||| PF_X) ∧
    ∀ m, ELF64.new i = some m →
      (∀ symbolBytes, (m.getSymbolOffset symbolBytes).isSome) ∧
      (i.symtab = none → i.dynsym = none →
        ∀ symbolBytes, m.getSymbolOffset symbolBytes = some none) := by
  constructor
  · rw [ELF64.new]
    cases hf : i.segments.find? fun p => p.p_type == PT_LOAD && p.p_flags == (PF_R ||| PF_X) with
    | none =>
      refine iff_of_false (by simp) ?_
      rintro ⟨p, hp, h1, h2⟩
      have := List.find?_eq_none.mp hf p hp
      simp [h1, h2] at this
    | some p =>
      refine iff_of_true rfl ⟨p, List.mem_of_find?_eq_some hf, ?_⟩
      have := List.find?_some hf
      simp only [Bool.and_eq_true, beq_iff_eq] at this
      exact this
  · intro m hm
    have hminput : m.input = i := by
      rw [ELF64.new] at hm
      cases hf : i.segments.find? fun p => p.p_type == PT_LOAD && p.p_flags == (PF_R ||| PF_X) with
      | none => rw [hf] at hm; exact absurd hm (by simp)
      | some p =>
        rw [hf] at hm
        injection hm with hm
        rw [← hm]
    constructor
    · intro symbolBytes
      rw [ELF64.getSymbolOffset, hminput]
      have hdyn : (match i.dynsym with
          | none => some none
          | some tab =>
            match lookupSym tab i.dynstr m.addr_offset_diff symbolBytes with
            | none => none
            | some (some v) => some (some v)
            | some none => some none : Option (Option Int)).isSome := by
        cases hd : i.dynsym with
        | none => rfl
        | some tab =>
          obtain ⟨st, hst, hread⟩ := hwf.2 tab hd
          rw [hst]
          dsimp only
          have := lookupSym_isSome tab st m.addr_offset_diff symbolBytes hread
          obtain ⟨v, hv⟩ := Option.isSome_iff_exists.mp this
          rw [hv]
          cases v <;> rfl
      cases hsy : i.symtab with
      | none => exact hdyn
      | some tab =>
        obtain ⟨st, hst, hread⟩ := hwf.1 tab hsy
        rw [hst]
        dsimp only
        have := lookupSym_isSome tab st m.addr_offset_diff symbolBytes hread
        obtain ⟨v, hv⟩ := Option.isSome_iff_exists.mp this
        rw [hv]
        cases v with
        | none => exact hdyn
        | some v => rfl
    · intro hsy hdy symbolBytes
      rw [ELF64.getSymbolOffset, hminput, hsy, hdy]

/-- A concrete well-formed ELF input with one read-only-executable load
segment and no symbol tables. -/
def elfW : ELFInput := ⟨[⟨1, 5, 100, 40⟩], none, none, none, none⟩

/-- Witness for C7 on `elfW`. -/
theorem C7_witness :
    (ELF64.new elfW).isSome ∧ ELF64.getSymbolOffset ⟨elfW, 60⟩ [7, 8] = some none :=
  ⟨(C7_elf_reader_tolerance elfW (by constructor <;> intro tab h <;> cases h)).1.mpr
      ⟨⟨1, 5, 100, 40⟩, by decide, by decide, by decide⟩,
    ((C7_elf_reader_tolerance elfW (by constructor <;> intro tab h <;> cases h)).2 ⟨elfW, 60⟩
        (by decide)).2 rfl rfl [7, 8]⟩

/-- A trivial filesystem in which every path exists, used to instantiate the
abstract tracer filter. -/
def fsAll : String → Bool := fun _ => true

/-- The empty pattern is a prefix of every list. -/
theorem isPrefixList_nil (l : List Char) : isPrefixList [] l = true := by
  cases l <;> rfl

/-- A string starting with a slash has a slash as its first character. -/
theorem startsWith_slash_head (s : String) (h : startsWithStr s "/" = true) :
    ∃ t, s.data = '/' :: t := by
  rw [startsWithStr] at h
  cases hd : s.data with
  | nil => rw [hd] at h; exact absurd h (by decide)
  | cons b bs =>
    rw [hd] at h
    simp only [isPrefixList, Bool.and_eq_true, decide_eq_true_eq] at h
    exact ⟨bs, by rw [← h.1]⟩

/-- Prefixing an absolute working directory keeps the result absolute. -/
theorem startsWith_slash_append (cwd p : String) (h : startsWithStr cwd "/" = true) :
    startsWithStr (cwd ++ "/" ++ p) "/" = true := by
  obtain ⟨t, ht⟩ := startsWith_slash_head cwd h
  rw [startsWithStr, String.data_append, String.data_append, ht]
  show isPrefixList ['/'] (('/' :: t ++ '/' :: []) ++ p.data) = true
  simp [isPrefixList, isPrefixList_nil]

/-- Every path produced by the model canonicalizer is absolute. -/
theorem pathNormalize_abs (p c : String) (h : pathNormalize p = some c) :
    startsWithStr c "/" = true := by
  rw [pathNormalize] at h
  by_cases hs : startsWithStr p "/" = true
  · rw [if_pos hs] at h
    injection h with h
    rw [← h, startsWithStr]
    simp [isPrefixList, isPrefixList_nil]
  · rw [if_neg hs] at h
    exact absurd h (by simp)

/-- A successful filter run is the `filterMap` of the per-path step. -/
theorem collectLoadedSos_eq_filterMap (fsE : String → Bool) (canon : String → Option String)
    (cwd : String) :
    ∀ (ps out : List String), collectLoadedSos fsE canon cwd ps = some out →
      out = ps.filterMap fun p => (processSoPath fsE canon cwd p).getD none := by
  intro ps
  induction ps with
  | nil =>
    intro out h
    injection h with h
    rw [← h]
    rfl
  | cons p ps ih =>
    intro out h
    rw [collectLoadedSos] at h
    cases hp : processSoPath fsE canon cwd p with
    | none => rw [hp] at h; exact absurd h (by simp)
    | some oa =>
      rw [hp] at h
      cases oa with
      | none =>
        dsimp only at h
        rw [List.filterMap_cons, hp]
        exact ih out h
      | some a =>
        dsimp only at h
        cases hrest : collectLoadedSos fsE canon cwd ps with
        | none => rw [hrest] at h; exact absurd h (by simp)
        | some rest =>
          rw [hrest] at h
          injection h with h
          rw [← h, List.filterMap_cons, hp]
          dsimp only
          rw [ih rest hrest]
          rfl

/-- Characterization of one filter step: it yields `m` exactly under the
code's skip conditions and branch results. -/
theorem processSoPath_getD_some (fsE : String → Bool) (canon : String → Option String)
    (cwd p m : String) :
    (processSoPath fsE canon cwd p).getD none = some m ↔
      ¬ p = "" ∧ fsE p = true ∧ containsSubstr p "libkerneldetector.so" = false ∧
        ((startsWithStr p "/" = true ∧ canon p = some m) ∨
          (startsWithStr p "/" = false ∧ m = cwd ++ "/" ++ p)) := by
  rw [processSoPath]
  by_cases h1 : p = ""
  · simp [h1]
  · rw [if_neg h1]
    by_cases h2 : fsE p = true
    · rw [if_neg (by simp [h2])]
      by_cases h3 : containsSubstr p "libkerneldetector.so" = true
      · simp [h3]
      · rw [if_neg h3]
        by_cases h4 : startsWithStr p "/" = true
        · rw [if_pos h4]
          cases hc : canon p with
          | none => simp [h1, h2, h3, h4, hc]
          | some c =>
            simp only [Option.getD_some, Option.some_inj]
            simp only [Bool.not_eq_true] at h3
            simp [h1, h2, h3, h4, hc, eq_comm]
        · rw [if_neg h4]
          simp only [Option.getD_some, Option.some_inj]
          simp only [Bool.not_eq_true] at h3 h4
          simp [h1, h2, h3, h4, eq_comm]
    · rw [if_pos (by simp [h2])]
      simp [h1, h2]

/-- C9 (amended): the final `loaded_sos` set is computed by the filter —
empty, non-existent and shim paths dropped, absolute paths canonicalized,
relative paths prefixed with `cwd ++ "/"` by string concatenation WITHOUT
canonicalization — and every member is absolute provided the working
directory is absolute and canonicalization preserves absoluteness (members
coming from relative paths need not be canonical). -/
theorem C9_loaded_sos_filter (fsE : String → Bool) (canon : String → Option String)
    (cwd : String) (ps out : List String)
    (h : collectLoadedSos fsE canon cwd ps = some out) :
    (∀ m, m ∈ out ↔ ∃ p ∈ ps, ¬ p = "" ∧ fsE p = true ∧
      containsSubstr p "libkerneldetector.so" = false ∧
      ((startsWithStr p "/" = true ∧ canon p = some m) ∨
        (startsWithStr p "/" = false ∧ m = cwd ++ "/" ++ p))) ∧
    (startsWithStr cwd "/" = true →
      (∀ p c, canon p = some c → startsWithStr c "/" = true) →
      ∀ m ∈ out, startsWithStr m "/" = true) := by
  have hmem : ∀ m, m ∈ out ↔ ∃ p ∈ ps, ¬ p = "" ∧ fsE p = true ∧
      containsSubstr p "libkerneldetector.so" = false ∧
      ((startsWithStr p "/" = true ∧ canon p = some m) ∨
        (startsWithStr p "/" = false ∧ m = cwd ++ "/" ++ p)) := by
    intro m
    rw [collectLoadedSos_eq_filterMap fsE canon cwd ps out h, List.mem_filterMap]
    constructor
    · rintro ⟨p, hp, hstep⟩
      exact ⟨p, hp, (processSoPath_getD_some fsE canon cwd p m).mp hstep⟩
    · rintro ⟨p, hp, hconds⟩
      exact ⟨p, hp, (processSoPath_getD_some fsE canon cwd p m).mpr hconds⟩
  refine ⟨hmem, ?_⟩
  intro hcwd hcanon m hm
  obtain ⟨p, _, _, _, _, hcase⟩ := (hmem m).mp hm
  rcases hcase with ⟨_, hc⟩ | ⟨_, rfl⟩
  · exact hcanon p m hc
  · exact startsWith_slash_append cwd p hcwd

/-- Counterexample to C9 as stated: with every path existing and
canonicalization modelled by component normalization, the relative input
path `a/../b` survives the filter as `/w/a/../b`, which is absolute but not
canonical (canonicalizing it yields `/w/b`). -/
theorem C9_counterexample :
    collectLoadedSos fsAll pathNormalize "/w" ["a/../b"] = some ["/w/a/../b"] ∧
      pathNormalize "/w/a/../b" = some "/w/b" ∧
      ¬ pathNormalize "/w/a/../b" = some "/w/a/../b" := by
  decide

/-- Witness for the amended C9: the absolute input `/etc/./x` is
canonicalized and the resulting member is absolute. -/
theorem C9_witness : startsWithStr "/etc/x" "/" = true :=
  (C9_loaded_sos_filter fsAll pathNormalize "/home" ["/etc/./x"] ["/etc/x"] (by decide)).2
    (by decide) pathNormalize_abs "/etc/x" (by decide)
